import Mathlib

/-!
Verification of the trace-scope event capture and delivery pipeline
(`include/trace-scope/trace_scope.hpp`) against its specification.

The C++ source is shallowly embedded: strings are lists of characters,
machine integers are `Nat`/`Int` with explicit truncation where the source
relies on fixed-width wraparound, the per-thread ring buffer is a record of
its scalar fields and its slot array, and the hot-path writer functions are
translated branch by branch.  The embedding models the default build
configuration of the header: `TRACE_DOUBLE_BUFFER = 0` (single buffer per
ring, `TRACE_NUM_BUFFERS = 1`), with `TRACE_RING_CAP` and `TRACE_DEPTH_MAX`
kept as parameters (`cap`, `depth_max`) since they are compile-time defines.
-/

namespace Trace

/-! ## Wildcard matching (`filter_utils::wildcard_match`)

The C++ matcher walks the pattern and the text; on a `*` it skips
consecutive stars, succeeds if the pattern ends there, and otherwise tries
to match the remaining pattern at every non-empty suffix of the remaining
text.  `skipStars` models the two `while (*pattern == '*') ++pattern;`
loops; `tryStars` models the inner `while (*text) ... ++text` loop. -/

/-- Skip leading `'*'` characters of a pattern (`while (*pattern == '*') ++pattern`). -/
def skipStars : List Char → List Char
  | [] => []
  | c :: p => if c = '*' then skipStars p else c :: p

mutual

/-- Faithful translation of `filter_utils::wildcard_match` to lists of
characters.  The final clause models the code after the main loop exits
(one of the strings is exhausted): trailing stars are skipped and both
strings must be empty. -/
def wildcard_match : List Char → List Char → Bool
  | pc :: p, tc :: t =>
    if pc = '*' then
      if (skipStars p).isEmpty then true
      else tryStars (skipStars p) (tc :: t)
    else if pc = tc then wildcard_match p t
    else false
  | p, t => (skipStars p).isEmpty && t.isEmpty
termination_by p t => (p.length + t.length, 0)
decreasing_by
  · exact Prod.Lex.left _ _ (by
      have h : ∀ q : List Char, (skipStars q).length ≤ q.length := by
        intro q
        induction q with
        | nil => simp [skipStars]
        | cons c q ih =>
          simp only [skipStars]
          split
          · exact Nat.le_succ_of_le ih
          · exact Nat.le_refl _
      have := h p
      simp only [List.length_cons]
      omega)
  · exact Prod.Lex.left _ _ (by simp only [List.length_cons]; omega)

/-- The inner loop of the `'*'` case: try to match the pattern (already
star-stripped, non-empty) at each successive non-empty suffix of the text. -/
def tryStars : List Char → List Char → Bool
  | _, [] => false
  | ps, c :: t => wildcard_match ps (c :: t) || tryStars ps t
termination_by ps t => (ps.length + t.length, 1)
decreasing_by
  · exact Prod.Lex.right _ (by omega)
  · exact Prod.Lex.left _ _ (by simp only [List.length_cons]; omega)

end

/-! ### Specification-side glob semantics for the matcher

The specification describes the matcher denotationally: the text matches
iff it equals the concatenation of the literal segments of the pattern
separated by arbitrary substrings, one for each `*`.  `segsOf` computes
the literal segments (maximal star-free runs, with empty segments at the
ends and between adjacent stars), and `SegsMatch` is that decomposition. -/

/-- The literal segments of a pattern: splitting on `'*'`, keeping empty
segments (so a pattern with k stars has k+1 segments). -/
def segsOf : List Char → List (List Char)
  | [] => [[]]
  | c :: p =>
    match segsOf p with
    | [] => if c = '*' then [[], []] else [[c]]
    | s :: ss => if c = '*' then [] :: s :: ss else (c :: s) :: ss

/-- A text matches a segment list iff it is the concatenation of the
segments with one arbitrary substring inserted at each former star
position. -/
def SegsMatch : List (List Char) → List Char → Prop
  | [], t => t = []
  | [seg], t => t = seg
  | seg :: s :: ss, t => ∃ w u, t = seg ++ w ++ u ∧ SegsMatch (s :: ss) u

/-- The claim's matching relation: the text is the concatenation of the
pattern's literal segments separated by arbitrary substrings (anchored at
both ends, case-sensitive since character equality is exact). -/
def GlobSpec (p t : List Char) : Prop :=
  SegsMatch (segsOf p) t

/-- Intermediate structural glob semantics, used to relate the recursive
matcher to the segment decomposition: a non-star character must match
literally, a star may consume any number of text characters. -/
inductive GM : List Char → List Char → Prop where
  | nil : GM [] []
  | cons {c : Char} {p t : List Char} : c ≠ '*' → GM p t → GM (c :: p) (c :: t)
  | star_skip {p t : List Char} : GM p t → GM ('*' :: p) t
  | star_eat {p t : List Char} {c : Char} : GM ('*' :: p) t → GM ('*' :: p) (c :: t)

/-! ## Filter engine (`filter_utils::matches_any`, `filter_utils::should_trace`) -/

/-- Translation of `filter_utils::matches_any`.  A null text never matches;
an empty pattern list never matches. -/
def matches_any (text : Option (List Char)) (patterns : List (List Char)) : Bool :=
  match text with
  | none => false
  | some t =>
    if patterns.isEmpty then false
    else patterns.any fun pat => wildcard_match pat t

/-- The filter lists and depth cap (`Config::filter` in the source). -/
structure Filter where
  include_functions : List (List Char)
  exclude_functions : List (List Char)
  include_files : List (List Char)
  exclude_files : List (List Char)
  max_depth : Int
  deriving Repr, DecidableEq

/-- One name dimension of `should_trace`: inside the `if (func)` /
`if (file)` blocks the source returns false when the exclude list matches,
or when the include list is non-empty and does not match. -/
def dimension_rejects (name : Option (List Char)) (excl incl : List (List Char)) : Bool :=
  match name with
  | none => false
  | some s =>
    if matches_any (some s) excl then true
    else if ¬incl.isEmpty ∧ ¬matches_any (some s) incl then true
    else false

/-- Translation of `filter_utils::should_trace`: depth cap first, then the
function dimension, then the file dimension, each with early returns. -/
def should_trace (f : Filter) (func file : Option (List Char)) (depth : Int) : Bool :=
  if f.max_depth ≥ 0 ∧ depth > f.max_depth then false
  else if dimension_rejects func f.exclude_functions f.include_functions then false
  else if dimension_rejects file f.exclude_files f.include_files then false
  else true

/-! ## Events, configuration and the per-thread ring -/

/-- Translation of `enum class EventType`. -/
inductive EventType where
  | Enter
  | Exit
  | Msg
  deriving Repr, DecidableEq, Inhabited

/-- Translation of `enum class TracingMode`. -/
inductive TracingMode where
  | Buffered
  | Immediate
  | Hybrid
  deriving Repr, DecidableEq

/-- Translation of `struct Event`.  `func` and `file` are `const char*` in
the source and may be null, hence `Option`; `msg` is an inline char array,
never null.  64/32-bit fields are modelled as `Nat` with explicit mod-2^64
truncation at the one place the source relies on unsigned wraparound
(the duration subtraction). -/
structure Event where
  ts_ns : Nat
  func : Option (List Char)
  file : Option (List Char)
  line : Int
  depth : Int
  tid : Nat
  color_offset : Nat
  type : EventType
  dur_ns : Nat
  msg : List Char
  memory_rss : Nat
  deriving Repr, DecidableEq, Inhabited

/-- The configuration fields the capture pipeline reads (`struct Config`).
Display-only fields (markers, widths, colors) are external to the core and
not modelled.  `auto_flush_threshold` only controls when the Hybrid path
emits text through `flush_current_thread`, which leaves the ring state
unchanged in single-buffer mode, so it does not appear in the state
transition. -/
structure Config where
  mode : TracingMode
  auto_flush_at_exit : Bool
  track_memory : Bool
  filter : Filter
  deriving Repr, DecidableEq

/-- Default-constructed `Config`: Buffered mode, `auto_flush_at_exit = false`
(the source marks it opt-in), memory tracking off, empty filter lists,
`max_depth = -1`. -/
def defaultConfig : Config :=
  { mode := TracingMode.Buffered
    auto_flush_at_exit := false
    track_memory := false
    filter :=
      { include_functions := []
        exclude_functions := []
        include_files := []
        exclude_files := []
        max_depth := -1 } }

/-- Translation of `struct Ring` in the default single-buffer build
(`TRACE_NUM_BUFFERS = 1`): one slot array `buf` of length `cap`
(`TRACE_RING_CAP`), a head index, a wrap counter, the call depth and the
two depth-indexed parallel stacks of length `depth_max`
(`TRACE_DEPTH_MAX`). -/
structure Ring where
  cap : Nat
  depth_max : Nat
  buf : List Event
  head : Nat
  wraps : Nat
  depth : Int
  tid : Nat
  color_offset : Nat
  start_stack : List Nat
  func_stack : List (Option (List Char))
  deriving Repr, DecidableEq

/-- A fresh ring for a thread: empty slots, head and wraps zero, depth zero.
The source leaves the slot array and the stacks uninitialised; the model
fills them with defaults, and every theorem below reads only entries that
an earlier write has stored. -/
def Ring.init (cap depth_max tid color_offset : Nat) : Ring :=
  { cap := cap
    depth_max := depth_max
    buf := List.replicate cap default
    head := 0
    wraps := 0
    depth := 0
    tid := tid
    color_offset := color_offset
    start_stack := List.replicate depth_max 0
    func_stack := List.replicate depth_max none }

/-- The three-line buffered store
(`buf[head] = e; head = (head+1) % CAP; if (head == 0) ++wraps;`). -/
def bufStore (r : Ring) (e : Event) : Ring :=
  let head' := (r.head + 1) % r.cap
  { r with
    buf := r.buf.set r.head e
    head := head'
    wraps := if head' = 0 then r.wraps + 1 else r.wraps }

/-- Result of one recording call: the updated ring, the event stored into
the ring buffer (Buffered/Hybrid), and the event handed to the async queue
(Immediate/Hybrid). -/
structure WriteResult where
  ring : Ring
  stored : Option Event
  enqueued : Option Event
  deriving Repr, DecidableEq

/-- Mode dispatch at the end of `Ring::write`: Buffered stores into the
ring; Immediate enqueues to the async queue; Hybrid does both.  The Hybrid
branch additionally calls `flush_current_thread` when the occupancy
threshold is met, which only emits text and leaves the ring unchanged in
single-buffer mode, so it does not appear here. -/
def deliver (cfg : Config) (r : Ring) (e : Event) : WriteResult :=
  match cfg.mode with
  | TracingMode.Buffered => { ring := bufStore r e, stored := some e, enqueued := none }
  | TracingMode.Immediate => { ring := r, stored := none, enqueued := some e }
  | TracingMode.Hybrid => { ring := bufStore r e, stored := some e, enqueued := some e }

/-- Translation of `Ring::write`.  `now` is the sampled wall-clock
nanosecond timestamp, `rss` the RSS probe's reading (used only when
`track_memory` is on, as in the source).  The filtered branch keeps the
depth bookkeeping and emits nothing; the Exit duration uses uint64
wraparound subtraction, modelled exactly as `(now + 2^64 - start) % 2^64`
for `start < 2^64`. -/
def Ring.write (cfg : Config) (r : Ring) (type : EventType) (func file : Option (List Char))
    (line : Int) (now rss : Nat) : WriteResult :=
  if ¬should_trace cfg.filter func file r.depth then
    match type with
    | EventType.Enter =>
      let d := r.depth
      let r1 :=
        if d < (r.depth_max : Int) then
          { r with
            start_stack := r.start_stack.set d.toNat now
            func_stack := r.func_stack.set d.toNat func }
        else r
      { ring := { r1 with depth := r1.depth + 1 }, stored := none, enqueued := none }
    | EventType.Exit =>
      { ring := { r with depth := max 0 (r.depth - 1) }, stored := none, enqueued := none }
    | EventType.Msg =>
      { ring := r, stored := none, enqueued := none }
  else
    let e0 : Event :=
      { ts_ns := now
        func := func
        file := file
        line := line
        depth := 0
        tid := r.tid
        color_offset := r.color_offset
        type := type
        dur_ns := 0
        msg := []
        memory_rss := if cfg.track_memory then rss else 0 }
    match type with
    | EventType.Enter =>
      let d := r.depth
      let e := { e0 with depth := d }
      let r1 :=
        if d < (r.depth_max : Int) then
          { r with
            start_stack := r.start_stack.set d.toNat now
            func_stack := r.func_stack.set d.toNat func }
        else r
      deliver cfg { r1 with depth := r1.depth + 1 } e
    | EventType.Exit =>
      let depth' := max 0 (r.depth - 1)
      let d := max 0 depth'
      let e :=
        { e0 with
          depth := d
          dur_ns :=
            if d < (r.depth_max : Int) then
              (now + 2 ^ 64 - r.start_stack.getD d.toNat 0) % 2 ^ 64
            else 0 }
      deliver cfg { r with depth := depth' } e
    | EventType.Msg =>
      deliver cfg r { e0 with depth := r.depth }

/-- Message formatting: `vsnprintf(e.msg, TRACE_MSG_CAP, ...)` stores at
most `TRACE_MSG_CAP - 1 = 191` characters; a null format yields the empty
message. -/
def msgFormat (text : Option (List Char)) : List Char :=
  match text with
  | none => []
  | some s => s.take 191

/-- Translation of `Ring::write_msg`.  The function name is read from the
depth stack at `depth - 1` (clamped to 0).  Hybrid and Immediate assemble
the Msg event directly (no filter, `memory_rss = 0`); Buffered delegates to
`Ring.write` with type `Msg` and then formats the text directly into the
slot just before head — unconditionally, even when the filter dropped the
event. -/
def Ring.write_msg (cfg : Config) (r : Ring) (file : Option (List Char)) (line : Int)
    (now rss : Nat) (text : Option (List Char)) : WriteResult :=
  let d : Int := if r.depth > 0 then r.depth - 1 else 0
  let current_func : Option (List Char) :=
    if d < (r.depth_max : Int) then r.func_stack.getD d.toNat none else none
  match cfg.mode with
  | TracingMode.Hybrid =>
    let e : Event :=
      { ts_ns := now
        func := current_func
        file := file
        line := line
        depth := r.depth
        tid := r.tid
        color_offset := r.color_offset
        type := EventType.Msg
        dur_ns := 0
        msg := msgFormat text
        memory_rss := 0 }
    { ring := bufStore r e, stored := some e, enqueued := some e }
  | TracingMode.Immediate =>
    let e : Event :=
      { ts_ns := now
        func := current_func
        file := file
        line := line
        depth := r.depth
        tid := r.tid
        color_offset := r.color_offset
        type := EventType.Msg
        dur_ns := 0
        msg := msgFormat text
        memory_rss := 0 }
    { ring := r, stored := none, enqueued := some e }
  | TracingMode.Buffered =>
    let res := Ring.write cfg r EventType.Msg current_func file line now rss
    let r1 := res.ring
    let idx := (r1.head + r1.cap - 1) % r1.cap
    let r2 :=
      match r1.buf.get? idx with
      | some e => { r1 with buf := r1.buf.set idx { e with msg := msgFormat text } }
      | none => r1
    { ring := r2
      stored := res.stored.map fun e => { e with msg := msgFormat text }
      enqueued := none }

/-! ## Flush (`flush_ring`, single-buffer branch) and auto-flush hook -/

/-- The event sequence a single-buffer flush emits: `head` events from
index 0 when the ring has not wrapped, else `cap` events starting at
`head`. -/
def flushOutput (r : Ring) : List Event :=
  let count := if r.wraps = 0 then r.head else r.cap
  let start := if r.wraps = 0 then 0 else r.head
  (List.range count).map fun i => r.buf.getD ((start + i) % r.cap) default

/-- Translation of `flush_ring` in single-buffer mode: the events are
printed under the I/O mutex and the ring is left untouched (the source
branch contains no assignment to the ring). -/
def flush_ring (r : Ring) : List Event × Ring :=
  (flushOutput r, r)

/-- Repeatedly store raw events into the buffer (the Buffered delivery
path applied to a whole write history). -/
def writeAll (r : Ring) (es : List Event) : Ring :=
  es.foldl bufStore r

/-- Translation of `check_auto_flush_on_scope_exit`: returns whether
`flush_all()` is invoked. -/
def check_auto_flush_on_scope_exit (cfg : Config) (final_depth : Int) : Bool :=
  cfg.auto_flush_at_exit && final_depth == 0

/-! ## Asynchronous queue (`AsyncQueue`)

The queue itself is a mutex-protected vector with two counters; the model
keeps the pending events, the written events and the two counters, with an
enqueue step (`AsyncQueue::enqueue`) and a drain step (one iteration of
`AsyncQueue::writer_loop`: swap the queue out and write all of it, adding
the batch size to the write counter).  `flush_now` is a poll loop over
successive reads of the two counters, bounded by the one-second timeout;
the model replaces the real-time bound by the finite list of reads the
loop performs before giving up. -/

structure QState where
  pending : List Event
  written : List Event
  enqueue_count : Nat
  write_count : Nat
  deriving Repr, DecidableEq

def QState.init : QState :=
  { pending := [], written := [], enqueue_count := 0, write_count := 0 }

inductive QueueOp where
  | enq (e : Event)
  | drain
  deriving Repr, DecidableEq

/-- One step of the queue: `enqueue` appends and bumps the enqueued
counter; `drain` swaps the pending list out, writes every event of the
batch and adds the batch size to the written counter. -/
def qstep (s : QState) : QueueOp → QState
  | QueueOp.enq e =>
    { s with pending := s.pending ++ [e], enqueue_count := s.enqueue_count + 1 }
  | QueueOp.drain =>
    { s with
      pending := []
      written := s.written ++ s.pending
      write_count := s.write_count + s.pending.length }

def runOps (ops : List QueueOp) : QState :=
  ops.foldl qstep QState.init

/-- The events enqueued by a run, in order. -/
def enqueuedOf (ops : List QueueOp) : List Event :=
  ops.filterMap fun op =>
    match op with
    | QueueOp.enq e => some e
    | QueueOp.drain => none

/-- The poll loop of `AsyncQueue::flush_now`: each element of `reads` is
one pair of loads of the two counters; the loop returns the pair at which
it observed equality, or `none` when the reads are exhausted (the
one-second timeout fires and the warning is logged). -/
def flush_now_poll : List (Nat × Nat) → Option (Nat × Nat)
  | [] => none
  | (e, w) :: rest => if e = w then some (e, w) else flush_now_poll rest

/-! ## Binary dump encoder (`dump_binary`) and a layout decoder

`dump_binary` serialises the fields the binary format carries.  The model
works at the byte level: strings are byte lists (a null `const char*` and
the empty string both serialise as a zero length prefix, so they are
identified here), and multi-byte integers are emitted little-endian via
`wBytes`. -/

/-- Little-endian byte emission: `wBytes k v` is the `k` low-order bytes of
`v`, least significant first (`fwrite` of a little-endian fixed-width
integer). -/
def wBytes : Nat → Nat → List Nat
  | 0, _ => []
  | k + 1, v => v % 256 :: wBytes k (v / 256)

/-- Little-endian byte parsing, inverse of `wBytes`. -/
def rBytes : Nat → List Nat → Option (Nat × List Nat)
  | 0, bs => some (0, bs)
  | k + 1, bs =>
    match bs with
    | [] => none
    | b :: bs' =>
      match rBytes k bs' with
      | some (v, rest) => some (b + 256 * v, rest)
      | none => none

/-- The string emitter of `dump_binary` (`emit_str`): a 2-byte length
`min(65535, strlen(s))` followed by that many bytes, no terminator.  A
null pointer is emitted as length 0. -/
def emit_str (s : List Nat) : List Nat :=
  let n := min 65535 s.length
  wBytes 2 n ++ s.take n

/-- The serialisable projection of an event, exactly the fields
`dump_binary` writes, in source order.  `depth` and `line` are the
`uint32_t` casts of the int fields; strings are byte lists (null and empty
coincide). -/
structure BinEvent where
  type : Nat
  tid : Nat
  color_offset : Nat
  ts_ns : Nat
  depth : Nat
  dur_ns : Nat
  memory_rss : Nat
  file : List Nat
  func : List Nat
  msg : List Nat
  line : Nat
  deriving Repr, DecidableEq

/-- Per-event encoder: 1-byte kind, 4-byte tid, 1-byte color offset, 8-byte
timestamp, 4-byte depth, 8-byte duration, 8-byte memory sample, the three
length-prefixed strings file/func/msg, 4-byte line — all little-endian. -/
def encodeEvent (e : BinEvent) : List Nat :=
  wBytes 1 e.type ++ wBytes 4 e.tid ++ wBytes 1 e.color_offset ++
  wBytes 8 e.ts_ns ++ wBytes 4 e.depth ++ wBytes 8 e.dur_ns ++
  wBytes 8 e.memory_rss ++
  emit_str e.file ++ emit_str e.func ++ emit_str e.msg ++
  wBytes 4 e.line

/-- The 8-byte magic "TRCLOG10" (bytes of T,R,C,L,O,G,1,0). -/
def magicBytes : List Nat := [84, 82, 67, 76, 79, 71, 49, 48]

/-- The byte stream `dump_binary` produces for an event sequence: magic,
32-bit version 2, 32-bit reserved zero, then each event in order. -/
def dump_binary (es : List BinEvent) : List Nat :=
  magicBytes ++ wBytes 4 2 ++ wBytes 4 0 ++ (es.map encodeEvent).flatten

/-- Read a counted byte block. -/
def readN (n : Nat) (bs : List Nat) : Option (List Nat × List Nat) :=
  if bs.length < n then none else some (bs.take n, bs.drop n)

/-- Read one length-prefixed string. -/
def readStr (bs : List Nat) : Option (List Nat × List Nat) :=
  match rBytes 2 bs with
  | some (n, rest) => readN n rest
  | none => none

/-- Spec-compliant decoder for one event, reading the layout of
`encodeEvent`. -/
def decodeEvent (bs : List Nat) : Option (BinEvent × List Nat) :=
  match rBytes 1 bs with
  | none => none
  | some (ty, bs) =>
  match rBytes 4 bs with
  | none => none
  | some (tid, bs) =>
  match rBytes 1 bs with
  | none => none
  | some (color, bs) =>
  match rBytes 8 bs with
  | none => none
  | some (ts, bs) =>
  match rBytes 4 bs with
  | none => none
  | some (depth, bs) =>
  match rBytes 8 bs with
  | none => none
  | some (dur, bs) =>
  match rBytes 8 bs with
  | none => none
  | some (mem, bs) =>
  match readStr bs with
  | none => none
  | some (file, bs) =>
  match readStr bs with
  | none => none
  | some (func, bs) =>
  match readStr bs with
  | none => none
  | some (msg, bs) =>
  match rBytes 4 bs with
  | none => none
  | some (line, bs) =>
    some ({ type := ty, tid := tid, color_offset := color, ts_ns := ts,
            depth := depth, dur_ns := dur, memory_rss := mem,
            file := file, func := func, msg := msg, line := line }, bs)

/-- Decode events until the bytes are exhausted (the format has no event
count; readers consume until EOF).  `fuel` bounds the recursion and is
instantiated with the byte count. -/
def decodeEvents : Nat → List Nat → Option (List BinEvent)
  | _, [] => some []
  | fuel, b :: bs =>
    match fuel with
    | 0 => none
    | fuel + 1 =>
      match decodeEvent (b :: bs) with
      | some (e, rest) => (decodeEvents fuel rest).map fun es => e :: es
      | none => none

/-- Decode a whole dump: validate the 16-byte header (magic, version 2,
reserved zero), then read events until EOF. -/
def decodeDump (bs : List Nat) : Option (List BinEvent) :=
  if bs.take 16 = magicBytes ++ wBytes 4 2 ++ wBytes 4 0 then
    decodeEvents (bs.drop 16).length (bs.drop 16)
  else none

/-- The field bounds under which an event is representable in the binary
format: the kind byte and color fit one byte, the ids and counts fit their
fixed widths, and each string is at most 65535 bytes of values below 256. -/
def BinEvent.WF (e : BinEvent) : Prop :=
  e.type < 256 ∧ e.tid < 2 ^ 32 ∧ e.color_offset < 256 ∧ e.ts_ns < 2 ^ 64 ∧
  e.depth < 2 ^ 32 ∧ e.dur_ns < 2 ^ 64 ∧ e.memory_rss < 2 ^ 64 ∧
  e.file.length ≤ 65535 ∧ e.func.length ≤ 65535 ∧ e.msg.length ≤ 65535 ∧
  e.line < 2 ^ 32

instance (e : BinEvent) : Decidable e.WF := by
  unfold BinEvent.WF
  infer_instance

/-- The Message event `Ring.write_msg` assembles: the function name is
read from the depth stack at `depth - 1`, clamped to index 0 when the
depth is zero (a null name only when the clamped index is outside the
depth bound); the event carries the current depth and the truncated text.
`mem` is the memory sample the path records (zero on the Hybrid/Immediate
paths, the RSS probe value on the Buffered path when tracking is on). -/
def msgEventOf (r : Ring) (file : Option (List Char)) (l : Int) (n : Nat)
    (txt : Option (List Char)) (mem : Nat) : Event :=
  let d : Int := if r.depth > 0 then r.depth - 1 else 0
  let fname : Option (List Char) :=
    if d < (r.depth_max : Int) then r.func_stack.getD d.toNat none else none
  { ts_ns := n
    func := fname
    file := file
    line := l
    depth := r.depth
    tid := r.tid
    color_offset := r.color_offset
    type := EventType.Msg
    dur_ns := 0
    msg := msgFormat txt
    memory_rss := mem }

/-- Whether a recording call delivered its event at all: stored into the
ring buffer or handed to the async queue (the event is part of the
recorded stream on some path). -/
def recordedOf (res : WriteResult) : Bool :=
  res.stored.isSome || res.enqueued.isSome

/-- The default configuration with a depth cap of 0 (trace only depth-0
sites). -/
def cfgDepthCap : Config :=
  { defaultConfig with filter := { defaultConfig.filter with max_depth := 0 } }

/-- A small fresh ring (capacity 4, depth bound 8) for concrete runs. -/
def cexRing : Ring := Ring.init 4 8 5 1

/-- Concrete run for C1: an Enter at depth 0 under a depth cap of 0. -/
def cexC1Enter : WriteResult :=
  Ring.write cfgDepthCap cexRing EventType.Enter (some ['f']) (some ['c']) 10 100 0

/-- Concrete run for C1: the matching Exit, whose filter check happens at
depth 1. -/
def cexC1Exit : WriteResult :=
  Ring.write cfgDepthCap cexC1Enter.ring EventType.Exit (some ['f']) (some ['c']) 12 200 0

/-- Concrete run for C7: an Enter under the default configuration. -/
def cexC7Enter : WriteResult :=
  Ring.write defaultConfig cexRing EventType.Enter (some ['f']) (some ['c']) 10 100 0

/-- Concrete run for C7: a message recorded inside that scope. -/
def cexC7Msg : WriteResult :=
  Ring.write_msg defaultConfig cexC7Enter.ring (some ['c']) 11 150 0 (some ['h', 'i'])

/-- Concrete run for C10: the ring after a complete Enter/Exit pair, back
at depth 0 with slot 0 of the function stack still holding the name. -/
def cexC10Ring : Ring :=
  (Ring.write defaultConfig
    (Ring.write defaultConfig cexRing EventType.Enter (some ['f']) (some ['c']) 1 10 0).ring
    EventType.Exit (some ['f']) (some ['c']) 2 20 0).ring

/-- Concrete run for C10: a message recorded at depth 0. -/
def cexC10Msg : WriteResult :=
  Ring.write_msg defaultConfig cexC10Ring (some ['c']) 3 30 0 (some ['h', 'i'])

/-- Concrete serialisable events used by the witness theorems. -/
def sampleBin1 : BinEvent :=
  { type := 0
    tid := 3735928559
    color_offset := 7
    ts_ns := 123456789
    depth := 0
    dur_ns := 0
    memory_rss := 0
    file := [109, 97, 105, 110, 46, 99, 112, 112]
    func := [102, 111, 111]
    msg := []
    line := 42 }

def sampleBin2 : BinEvent :=
  { type := 1
    tid := 3735928559
    color_offset := 7
    ts_ns := 123456999
    depth := 0
    dur_ns := 210
    memory_rss := 4096
    file := [109, 97, 105, 110, 46, 99, 112, 112]
    func := [102, 111, 111]
    msg := []
    line := 42 }

/-- A concrete event used by the witness theorems. -/
def sampleEvent (n : Nat) : Event :=
  { ts_ns := n
    func := none
    file := none
    line := 0
    depth := 0
    tid := 0
    color_offset := 0
    type := EventType.Msg
    dur_ns := 0
    msg := []
    memory_rss := 0 }

/-! ## Theorems -/

/-! ### Filter lemmas -/

theorem matches_any_some (s : List Char) (pats : List (List Char)) :
    matches_any (some s) pats = true ↔ ∃ p ∈ pats, wildcard_match p s = true := by
  cases pats with
  | nil => simp [matches_any]
  | cons q qs => simp [matches_any, List.any_eq_true]

theorem matches_any_eq_false (s : List Char) (pats : List (List Char)) :
    matches_any (some s) pats = false ↔ ∀ p ∈ pats, wildcard_match p s = false := by
  rw [← Bool.not_eq_true, matches_any_some]
  simp

theorem dimension_rejects_iff (name : Option (List Char)) (excl incl : List (List Char)) :
    dimension_rejects name excl incl = true ↔
      ∃ s, name = some s ∧
        ((∃ p ∈ excl, wildcard_match p s = true) ∨
         (incl ≠ [] ∧ ∀ p ∈ incl, wildcard_match p s = false)) := by
  cases name with
  | none => simp [dimension_rejects]
  | some s =>
    simp only [dimension_rejects, Option.some.injEq]
    constructor
    · intro h
      refine ⟨s, rfl, ?_⟩
      split_ifs at h with h1 h2
      · exact Or.inl ((matches_any_some s excl).mp h1)
      · refine Or.inr ⟨?_, ?_⟩
        · intro hnil
          exact h2.1 (by simp [hnil])
        · exact (matches_any_eq_false s incl).mp (Bool.not_eq_true _ ▸ h2.2)
    · rintro ⟨s', hs, hcase⟩
      cases hs
      rcases hcase with hexcl | ⟨hne, hinc⟩
      · rw [if_pos ((matches_any_some s excl).mpr hexcl)]
      · split_ifs with h1 h2
        · rfl
        · rfl
        · exfalso
          apply h2
          constructor
          · simpa [List.isEmpty_iff] using hne
          · simp [(matches_any_eq_false s incl).mpr hinc]

/-- C4.  `should_trace` rejects exactly when the depth cap is active and
exceeded, or a non-null function matches an exclude pattern or misses a
non-empty include list, or the same for the file; a null name never
rejects on its dimension, and everything else is accepted. -/
theorem claim_C4_should_trace (f : Filter) (func file : Option (List Char)) (depth : Int) :
    should_trace f func file depth = false ↔
      (0 ≤ f.max_depth ∧ f.max_depth < depth) ∨
      (∃ fn, func = some fn ∧
        ((∃ p ∈ f.exclude_functions, wildcard_match p fn = true) ∨
         (f.include_functions ≠ [] ∧ ∀ p ∈ f.include_functions, wildcard_match p fn = false))) ∨
      (∃ fl, file = some fl ∧
        ((∃ p ∈ f.exclude_files, wildcard_match p fl = true) ∨
         (f.include_files ≠ [] ∧ ∀ p ∈ f.include_files, wildcard_match p fl = false))) := by
  simp only [should_trace]
  split_ifs with h1 h2 h3
  · exact iff_of_true rfl (Or.inl ⟨h1.1, h1.2⟩)
  · exact iff_of_true rfl
      (Or.inr (Or.inl ((dimension_rejects_iff func f.exclude_functions f.include_functions).mp h2)))
  · exact iff_of_true rfl
      (Or.inr (Or.inr ((dimension_rejects_iff file f.exclude_files f.include_files).mp h3)))
  · refine iff_of_false (by simp) ?_
    rintro (hd | hfn | hfl)
    · exact h1 ⟨hd.1, hd.2⟩
    · exact h2 ((dimension_rejects_iff func f.exclude_functions f.include_functions).mpr hfn)
    · exact h3 ((dimension_rejects_iff file f.exclude_files f.include_files).mpr hfl)

/-! ### C8: scope-exit flush hook -/

/-- C8 counterexample.  Under the default configuration
(`auto_flush_at_exit = false`, the source marks it opt-in), a scope exit
returning the thread's depth to zero does NOT invoke flush-all, so the
hook is not on-outermost-only by default. -/
theorem claim_C8_counterexample :
    defaultConfig.auto_flush_at_exit = false ∧
    check_auto_flush_on_scope_exit defaultConfig 0 = false := by
  exact ⟨rfl, rfl⟩

/-- C8 amended.  The scope-exit flush hook is opt-in and disabled by
default: flush-all is invoked on scope exit exactly when
`auto_flush_at_exit` is enabled and the exit returned the depth to zero. -/
theorem claim_C8_amended (cfg : Config) (d : Int) :
    check_auto_flush_on_scope_exit cfg d = true ↔
      cfg.auto_flush_at_exit = true ∧ d = 0 := by
  simp [check_auto_flush_on_scope_exit]

/-! ### C9: single-buffer flush is observational -/

/-- C9.  In single-buffer mode `flush_ring` leaves the ring's head, wrap
counter, stored slots and depth unchanged, and flushing twice with no
intervening writes emits the same event sequence. -/
theorem claim_C9_flush_observational (r : Ring) :
    (flush_ring r).2 = r ∧
    (flush_ring r).2.head = r.head ∧
    (flush_ring r).2.wraps = r.wraps ∧
    (flush_ring r).2.buf = r.buf ∧
    (flush_ring r).2.depth = r.depth ∧
    (flush_ring (flush_ring r).2).1 = (flush_ring r).1 := by
  simp [flush_ring]

/-! ### C6: flush-now drain barrier -/

theorem runOps_invariant (ops : List QueueOp) :
    (runOps ops).written ++ (runOps ops).pending = enqueuedOf ops ∧
    (runOps ops).enqueue_count = (enqueuedOf ops).length ∧
    (runOps ops).write_count = (runOps ops).written.length := by
  induction ops using List.reverseRecOn with
  | nil => simp [runOps, enqueuedOf, QState.init]
  | append_singleton ops op ih =>
    obtain ⟨h1, h2, h3⟩ := ih
    have hrun : runOps (ops ++ [op]) = qstep (runOps ops) op := by
      simp [runOps, List.foldl_append]
    cases op with
    | enq e =>
      refine ⟨?_, ?_, ?_⟩
      · rw [hrun]
        simp only [qstep, enqueuedOf, List.filterMap_append]
        rw [← List.append_assoc, h1]
        simp [enqueuedOf]
      · rw [hrun]
        simp only [qstep, enqueuedOf, List.filterMap_append, List.length_append]
        simp [enqueuedOf] at h2 ⊢
        omega
      · rw [hrun]
        simpa [qstep] using h3
    | drain =>
      refine ⟨?_, ?_, ?_⟩
      · rw [hrun]
        simp only [qstep, enqueuedOf, List.filterMap_append]
        simpa using h1
      · rw [hrun]
        simp only [qstep, enqueuedOf, List.filterMap_append]
        simpa [enqueuedOf] using h2
      · rw [hrun]
        simp only [qstep, List.length_append]
        omega

theorem flush_now_poll_eq (reads : List (Nat × Nat)) (e w : Nat)
    (h : flush_now_poll reads = some (e, w)) : e = w := by
  induction reads with
  | nil => simp [flush_now_poll] at h
  | cons r rest ih =>
    obtain ⟨a, b⟩ := r
    simp only [flush_now_poll] at h
    split at h
    · obtain ⟨he, hw⟩ := Prod.mk.injEq .. ▸ Option.some.injEq .. ▸ h
      omega
    · exact ih h

/-- C6.  When the `flush_now` poll loop returns without exhausting its
time budget — i.e. it observed the enqueued and written counters equal —
the two totals are equal, the queue is empty, and every enqueued event has
been written, in order. -/
theorem claim_C6_flush_now (ops : List QueueOp) (reads : List (Nat × Nat))
    (h : flush_now_poll reads =
      some ((runOps ops).enqueue_count, (runOps ops).write_count)) :
    (runOps ops).enqueue_count = (runOps ops).write_count ∧
    (runOps ops).pending = [] ∧
    (runOps ops).written = enqueuedOf ops := by
  have hcnt := flush_now_poll_eq reads _ _ h
  obtain ⟨h1, h2, h3⟩ := runOps_invariant ops
  have hlen : (runOps ops).written.length + (runOps ops).pending.length =
      (enqueuedOf ops).length := by
    have := congrArg List.length h1
    simpa [List.length_append] using this
  have hpend : (runOps ops).pending.length = 0 := by omega
  have hpend' : (runOps ops).pending = [] := List.length_eq_zero.mp hpend
  refine ⟨hcnt, hpend', ?_⟩
  rw [hpend', List.append_nil] at h1
  exact h1

/-- C6 witness: one enqueue, one drain, and a poll that observes the equal
counters (1, 1). -/
theorem claim_C6_flush_now_witness :
    (runOps [QueueOp.enq default, QueueOp.drain]).enqueue_count =
      (runOps [QueueOp.enq default, QueueOp.drain]).write_count ∧
    (runOps [QueueOp.enq default, QueueOp.drain]).pending = [] ∧
    (runOps [QueueOp.enq default, QueueOp.drain]).written =
      enqueuedOf [QueueOp.enq default, QueueOp.drain] :=
  claim_C6_flush_now [QueueOp.enq default, QueueOp.drain] [(1, 1)] (by rfl)

/-! ### C2: flush of a buffered ring retrieves min(W, C) most recent events -/

theorem getD_eq_getElem_ev (l : List Event) (i : Nat) (h : i < l.length) :
    l.getD i default = l[i] := by
  simp [List.getD_eq_getElem?_getD, List.getElem?_eq_getElem h]

theorem getD_set_self_ev (l : List Event) (i : Nat) (x : Event) (h : i < l.length) :
    (l.set i x).getD i default = x := by
  simp [List.getD_eq_getElem?_getD, List.getElem?_set, h]

theorem getD_set_ne_ev (l : List Event) (i j : Nat) (x : Event) (h : i ≠ j) :
    (l.set i x).getD j default = l.getD j default := by
  simp [List.getD_eq_getElem?_getD, List.getElem?_set, h]

theorem getD_append_left_ev (l l2 : List Event) (i : Nat) (h : i < l.length) :
    (l ++ l2).getD i default = l.getD i default := by
  simp [List.getD_eq_getElem?_getD, List.getElem?_append_left h]

theorem getD_append_self_ev (l : List Event) (e : Event) :
    (l ++ [e]).getD l.length default = e := by
  simp [List.getD_eq_getElem?_getD, List.getElem?_append_right (Nat.le_refl _)]

theorem writeAll_append_one (r : Ring) (es : List Event) (e : Event) :
    writeAll r (es ++ [e]) = bufStore (writeAll r es) e := by
  simp [writeAll, List.foldl_append]

/-- State characterisation of a fresh ring after `W` buffered stores:
head is `W % C`, the wrap counter is `W / C`, and the slots hold the last
`min(W, C)` events at their write positions modulo `C`. -/
theorem writeAll_state (c dm tid col : Nat) (hc : 0 < c) (es : List Event) :
    (writeAll (Ring.init c dm tid col) es).cap = c ∧
    (writeAll (Ring.init c dm tid col) es).buf.length = c ∧
    (writeAll (Ring.init c dm tid col) es).head = es.length % c ∧
    (writeAll (Ring.init c dm tid col) es).wraps = es.length / c ∧
    ∀ k, es.length - min es.length c ≤ k → k < es.length →
      (writeAll (Ring.init c dm tid col) es).buf.getD (k % c) default =
        es.getD k default := by
  induction es using List.reverseRecOn with
  | nil =>
    refine ⟨rfl, by simp [writeAll, Ring.init], by simp [writeAll, Ring.init],
      by simp [writeAll, Ring.init], ?_⟩
    intro k _ hk
    simp at hk
  | append_singleton es e ih =>
    obtain ⟨hcap, hlen, hhead, hwraps, hcont⟩ := ih
    rw [writeAll_append_one]
    set r := writeAll (Ring.init c dm tid col) es with hr
    set W := es.length with hW
    have hWlen : (es ++ [e]).length = W + 1 := by simp [hW]
    have hhead' : (bufStore r e).head = (W + 1) % c := by
      simp only [bufStore, hhead, hcap]
      exact (Nat.mod_modEq W c).add_right 1
    refine ⟨by simp [bufStore, hcap], by simp [bufStore, hlen], by rw [hWlen]; exact hhead', ?_, ?_⟩
    · show (bufStore r e).wraps = (es ++ [e]).length / c
      rw [hWlen, Nat.succ_div]
      have hcond : ((r.head + 1) % r.cap = 0) = ((W + 1) % c = 0) := by
        rw [hhead, hcap]
        congr 1
        exact (Nat.mod_modEq W c).add_right 1
      simp only [bufStore, hcond, hwraps]
      by_cases h0 : (W + 1) % c = 0
      · have hdvd : c ∣ W + 1 := Nat.dvd_of_mod_eq_zero h0
        simp [h0, hdvd]
      · have hndvd : ¬c ∣ W + 1 := fun h => h0 (Nat.mod_eq_zero_of_dvd h)
        simp [h0, hndvd]
    · intro k hk1 hk2
      rw [hWlen] at hk2
      have hsetidx : (bufStore r e).buf = r.buf.set (W % c) e := by
        simp [bufStore, hhead]
      rcases Nat.lt_or_ge k W with hkW | hkW
      · -- an older slot, untouched by this store
        have hne : W % c ≠ k % c := by
          intro heq
          have hdvd : c ∣ W - k := (Nat.modEq_iff_dvd' (Nat.le_of_lt hkW)).mp heq.symm
          have hle : c ≤ W - k := Nat.le_of_dvd (by omega) hdvd
          rw [hWlen] at hk1
          omega
        rw [hsetidx, getD_set_ne_ev _ _ _ _ hne]
        have hk1' : W - min W c ≤ k := by
          rw [hWlen] at hk1
          omega
        rw [hcont k hk1' hkW]
        exact (getD_append_left_ev es [e] k (by omega)).symm
      · -- the slot just written
        have hkeq : k = W := by omega
        subst hkeq
        rw [hsetidx, getD_set_self_ev _ _ _ (by rw [hlen]; exact Nat.mod_lt _ hc)]
        rw [hW]
        exact (getD_append_self_ev es e).symm

/-- C2.  For a buffered ring of capacity `C > 0` into which the events
`es` (so `W = es.length` writes) have been stored, a flush retrieves
exactly `min(W, C)` events, namely the `min(W, C)` most recent ones in
chronological order: all of `es` when `W < C` (read from index 0), and the
last `C` events starting from head once the wrap counter is non-zero. -/
theorem claim_C2_flush_retrieves (c dm tid col : Nat) (hc : 0 < c) (es : List Event) :
    (flush_ring (writeAll (Ring.init c dm tid col) es)).1 =
      es.drop (es.length - min es.length c) := by
  obtain ⟨hcap, hlen, hhead, hwraps, hcont⟩ := writeAll_state c dm tid col hc es
  set r := writeAll (Ring.init c dm tid col) es with hr
  set W := es.length with hW
  show flushOutput r = es.drop (W - min W c)
  rcases Nat.lt_or_ge W c with hwr | hwr
  · -- not wrapped: all W events, from index 0
    have hw0 : r.wraps = 0 := by rw [hwraps]; exact (Nat.div_eq_zero_iff hc).mpr hwr
    have hhd : r.head = W := by rw [hhead]; exact Nat.mod_eq_of_lt hwr
    have hmin : W - min W c = 0 := by omega
    rw [hmin, List.drop_zero]
    simp only [flushOutput, hw0, if_pos, hhd, hcap, if_true]
    apply List.ext_getElem (by simp [hW])
    intro i h1 h2
    simp only [List.getElem_map, List.getElem_range]
    have hi : i < W := by simpa using h1
    rw [Nat.zero_add, hcont i (by omega) hi]
    exact getD_eq_getElem_ev es i (by omega)
  · -- wrapped: the last C events, starting from head
    have hw1 : ¬r.wraps = 0 := by
      rw [hwraps]
      have : 1 ≤ W / c := (Nat.one_le_div_iff hc).mpr hwr
      omega
    have hmin : min W c = c := by omega
    rw [hmin]
    simp only [flushOutput, hw1, if_false, hhead, hcap, if_neg hw1]
    apply List.ext_getElem (by simp [hW]; omega)
    intro i h1 h2
    simp only [List.getElem_map, List.getElem_range]
    have hi : i < c := by simpa using h1
    have hidx : (W % c + i) % c = (W - c + i) % c := by
      have e1 : (W % c + i) % c = (W + i) % c := (Nat.mod_modEq W c).add_right i
      have e2 : (W - c + i) % c = (W + i) % c := by
        conv_rhs => rw [show W + i = W - c + i + c by omega]
        rw [Nat.add_mod_right]
      rw [e1, e2]
    rw [hidx, hcont (W - c + i) (by omega) (by omega)]
    rw [getD_eq_getElem_ev es (W - c + i) (by omega)]
    exact (List.getElem_drop ..).symm

/-- C2 witness: capacity 2, three writes; the flush retrieves the last two
events. -/
theorem claim_C2_flush_retrieves_witness :
    0 < 2 ∧
    (flush_ring (writeAll (Ring.init 2 4 7 1) [sampleEvent 1, sampleEvent 2, sampleEvent 3])).1 =
      [sampleEvent 1, sampleEvent 2, sampleEvent 3].drop
        ([sampleEvent 1, sampleEvent 2, sampleEvent 3].length -
          min [sampleEvent 1, sampleEvent 2, sampleEvent 3].length 2) :=
  ⟨by decide, claim_C2_flush_retrieves 2 4 7 1 (by decide)
    [sampleEvent 1, sampleEvent 2, sampleEvent 3]⟩

/-! ### C3: binary dump round trip -/

theorem rBytes_wBytes (k v : Nat) (rest : List Nat) :
    rBytes k (wBytes k v ++ rest) = some (v % 256 ^ k, rest) := by
  induction k generalizing v with
  | zero => simp [wBytes, rBytes, Nat.mod_one]
  | succ k ih =>
    simp only [wBytes, rBytes, List.cons_append, ih]
    have hdig : v % 256 ^ (k + 1) = v % 256 + 256 * (v / 256 % 256 ^ k) := by
      rw [pow_succ', Nat.mod_mul]
    rw [hdig]

theorem rBytes_wBytes_of_lt (k v : Nat) (rest : List Nat) (h : v < 256 ^ k) :
    rBytes k (wBytes k v ++ rest) = some (v, rest) := by
  rw [rBytes_wBytes, Nat.mod_eq_of_lt h]

theorem readN_append (l rest : List Nat) :
    readN l.length (l ++ rest) = some (l, rest) := by
  simp [readN, List.take_left, List.drop_left]

theorem readStr_emit (s rest : List Nat) (h : s.length ≤ 65535) :
    readStr (emit_str s ++ rest) = some (s, rest) := by
  have hn : min 65535 s.length = s.length := by omega
  simp only [readStr, emit_str, hn, List.take_length, List.append_assoc]
  rw [rBytes_wBytes_of_lt 2 s.length (s ++ rest) (by norm_num; omega)]
  simp [readN_append]

theorem decodeEvent_encodeEvent (e : BinEvent) (he : e.WF) (rest : List Nat) :
    decodeEvent (encodeEvent e ++ rest) = some (e, rest) := by
  obtain ⟨h1, h2, h3, h4, h5, h6, h7, h8, h9, h10, h11⟩ := he
  have h1' : e.type < 256 ^ 1 := by simpa using h1
  have h2' : e.tid < 256 ^ 4 := by norm_num at h2 ⊢; omega
  have h3' : e.color_offset < 256 ^ 1 := by simpa using h3
  have h4' : e.ts_ns < 256 ^ 8 := by norm_num at h4 ⊢; omega
  have h5' : e.depth < 256 ^ 4 := by norm_num at h5 ⊢; omega
  have h6' : e.dur_ns < 256 ^ 8 := by norm_num at h6 ⊢; omega
  have h7' : e.memory_rss < 256 ^ 8 := by norm_num at h7 ⊢; omega
  have h11' : e.line < 256 ^ 4 := by norm_num at h11 ⊢; omega
  simp only [encodeEvent, List.append_assoc, decodeEvent]
  rw [rBytes_wBytes_of_lt 1 e.type _ h1']
  dsimp only
  rw [rBytes_wBytes_of_lt 4 e.tid _ h2']
  dsimp only
  rw [rBytes_wBytes_of_lt 1 e.color_offset _ h3']
  dsimp only
  rw [rBytes_wBytes_of_lt 8 e.ts_ns _ h4']
  dsimp only
  rw [rBytes_wBytes_of_lt 4 e.depth _ h5']
  dsimp only
  rw [rBytes_wBytes_of_lt 8 e.dur_ns _ h6']
  dsimp only
  rw [rBytes_wBytes_of_lt 8 e.memory_rss _ h7']
  dsimp only
  rw [readStr_emit e.file _ h8]
  dsimp only
  rw [readStr_emit e.func _ h9]
  dsimp only
  rw [readStr_emit e.msg _ h10]
  dsimp only
  rw [rBytes_wBytes_of_lt 4 e.line _ h11']

theorem encodeEvent_ne_nil (e : BinEvent) : encodeEvent e ≠ [] := by
  simp [encodeEvent, wBytes]

theorem length_le_length_flatten_encode (es : List BinEvent) :
    es.length ≤ ((es.map encodeEvent).flatten).length := by
  induction es with
  | nil => simp
  | cons e es ih =>
    simp only [List.map_cons, List.flatten_cons, List.length_append, List.length_cons]
    have : 0 < (encodeEvent e).length := by
      cases hE : encodeEvent e with
      | nil => exact absurd hE (encodeEvent_ne_nil e)
      | cons b bs => simp
    omega

theorem decodeEvents_encode (es : List BinEvent) (hwf : ∀ e ∈ es, e.WF)
    (fuel : Nat) (hfuel : es.length ≤ fuel) :
    decodeEvents fuel ((es.map encodeEvent).flatten) = some es := by
  induction es generalizing fuel with
  | nil => simp [decodeEvents]
  | cons e es ih =>
    obtain ⟨fuel, rfl⟩ : ∃ f, fuel = f + 1 :=
      ⟨fuel - 1, by simp at hfuel; omega⟩
    have hbytes : ((e :: es).map encodeEvent).flatten =
        encodeEvent e ++ (es.map encodeEvent).flatten := by
      simp
    rw [hbytes]
    cases hE : encodeEvent e with
    | nil => exact absurd hE (encodeEvent_ne_nil e)
    | cons b bs =>
      rw [List.cons_append]
      rw [decodeEvents]
      have hdec : decodeEvent (b :: (bs ++ (es.map encodeEvent).flatten)) =
          some (e, (es.map encodeEvent).flatten) := by
        rw [← List.cons_append, ← hE]
        exact decodeEvent_encodeEvent e (hwf e (by simp)) _
      rw [hdec]
      dsimp only
      rw [ih (fun x hx => hwf x (by simp [hx])) fuel (by simp at hfuel; omega)]
      rfl

/-- C3.  The binary dump stream is the 8-byte magic TRCLOG10, a 32-bit
little-endian version 2, a 32-bit zero word, then each event in the fixed
field order with 2-byte length-prefixed strings; a decoder that reads this
layout recovers the event sequence with field-by-field equality, for every
sequence of representable events (fields within their fixed widths,
strings at most 65535 bytes). -/
theorem claim_C3_binary_roundtrip (es : List BinEvent) (hwf : ∀ e ∈ es, e.WF) :
    decodeDump (dump_binary es) = some es := by
  unfold decodeDump dump_binary
  have hassoc : magicBytes ++ wBytes 4 2 ++ wBytes 4 0 ++ (es.map encodeEvent).flatten =
      (magicBytes ++ wBytes 4 2 ++ wBytes 4 0) ++ (es.map encodeEvent).flatten := by
    simp [List.append_assoc]
  rw [hassoc]
  have hlen : (magicBytes ++ wBytes 4 2 ++ wBytes 4 0).length = 16 := by rfl
  rw [← hlen, List.take_left, List.drop_left, if_pos rfl]
  exact decodeEvents_encode es hwf ((es.map encodeEvent).flatten).length
    (length_le_length_flatten_encode es)

/-- C3 witness: a two-event dump (an Enter/Exit pair with non-empty file
and function strings) decodes back to itself. -/
theorem claim_C3_binary_roundtrip_witness :
    (∀ e ∈ [sampleBin1, sampleBin2], e.WF) ∧
    decodeDump (dump_binary [sampleBin1, sampleBin2]) = some [sampleBin1, sampleBin2] :=
  ⟨by decide, claim_C3_binary_roundtrip [sampleBin1, sampleBin2] (by decide)⟩

/-! ### C1: Exit recorded iff matching Enter recorded -/

theorem should_trace_depth_irrel (f : Filter) (h : f.max_depth < 0)
    (func file : Option (List Char)) (d d2 : Int) :
    should_trace f func file d = should_trace f func file d2 := by
  simp only [should_trace]
  have h1 : ¬(f.max_depth ≥ 0 ∧ d > f.max_depth) := by omega
  have h2 : ¬(f.max_depth ≥ 0 ∧ d2 > f.max_depth) := by omega
  rw [if_neg h1, if_neg h2]

theorem recordedOf_deliver (cfg : Config) (r : Ring) (e : Event) :
    recordedOf (deliver cfg r e) = true := by
  cases hm : cfg.mode <;> simp [deliver, recordedOf, hm]

/-- A recording call delivers its event (on some path) exactly when the
filter accepts the site at the ring's current depth. -/
theorem recordedOf_write (cfg : Config) (r : Ring) (t : EventType)
    (func file : Option (List Char)) (l : Int) (n s : Nat) :
    recordedOf (Ring.write cfg r t func file l n s) =
      should_trace cfg.filter func file r.depth := by
  by_cases hst : should_trace cfg.filter func file r.depth = true
  · rw [hst, Ring.write.eq_def, if_neg (by simp [hst])]
    cases t <;> exact recordedOf_deliver ..
  · have hst2 : should_trace cfg.filter func file r.depth = false := by
      simpa using hst
    rw [hst2, Ring.write.eq_def, if_pos (by simp [hst2])]
    cases t <;> simp [recordedOf]

/-- C1 counterexample.  With a depth cap of 0 (and no pattern filters), an
Enter at depth 0 is recorded, but its matching Exit — whose filter check
happens at the pre-decrement depth 1 — is dropped (nothing stored, nothing
enqueued; only the depth is decremented back to 0), leaving an Enter with
no matching Exit in the recorded stream. -/
theorem claim_C1_counterexample :
    cexC1Enter.stored.isSome = true ∧
    cexC1Exit.stored = none ∧
    cexC1Exit.enqueued = none ∧
    cexC1Exit.ring.depth = 0 := by
  decide

/-- C1 amended.  `record-scope-exit` emits nothing (only decrementing the
depth) exactly when the filter rejects the site at the pre-decrement
depth; when no depth cap is set this makes the Exit recorded iff its
matching Enter (same function and file) was recorded, since the pattern
filters are depth-independent.  (With a depth cap the equivalence fails at
the boundary, as the counterexample shows.) -/
theorem claim_C1_amended (cfg : Config) (func file : Option (List Char)) (r1 r2 : Ring)
    (l1 l2 : Int) (n1 n2 s1 s2 : Nat) (h : cfg.filter.max_depth < 0) :
    recordedOf (Ring.write cfg r2 EventType.Exit func file l2 n2 s2) =
      recordedOf (Ring.write cfg r1 EventType.Enter func file l1 n1 s1) ∧
    (should_trace cfg.filter func file r2.depth = false →
      Ring.write cfg r2 EventType.Exit func file l2 n2 s2 =
        { ring := { r2 with depth := max 0 (r2.depth - 1) }
          stored := none
          enqueued := none }) := by
  constructor
  · rw [recordedOf_write, recordedOf_write]
    exact should_trace_depth_irrel cfg.filter h func file r2.depth r1.depth
  · intro hst
    rw [Ring.write.eq_def, if_pos (by simp [hst])]

/-- C1 witness: the default configuration has no depth cap; the amended
equivalence applies to a fresh ring. -/
theorem claim_C1_amended_witness :
    defaultConfig.filter.max_depth < 0 ∧
    (recordedOf (Ring.write defaultConfig cexRing EventType.Exit (some ['f']) (some ['c']) 3 50 0) =
      recordedOf (Ring.write defaultConfig cexRing EventType.Enter (some ['f']) (some ['c']) 2 40 0) ∧
    (should_trace defaultConfig.filter (some ['f']) (some ['c']) cexRing.depth = false →
      Ring.write defaultConfig cexRing EventType.Exit (some ['f']) (some ['c']) 3 50 0 =
        { ring := { cexRing with depth := max 0 (cexRing.depth - 1) }
          stored := none
          enqueued := none })) :=
  ⟨by decide,
   claim_C1_amended defaultConfig (some ['f']) (some ['c']) cexRing cexRing 2 3 40 50 0 0
     (by decide)⟩

/-! ### C7: depth and function name of Message events -/

theorem getD_set_self_gen {α : Type} (l : List α) (i : Nat) (x d0 : α) (h : i < l.length) :
    (l.set i x).getD i d0 = x := by
  simp [List.getD_eq_getElem?_getD, List.getElem?_set, h]

theorem should_trace_default (func file : Option (List Char)) (d : Int) :
    should_trace defaultConfig.filter func file d = true := by
  have h1 : ∀ nm : Option (List Char), dimension_rejects nm [] [] = false := by
    intro nm
    cases nm <;> simp [dimension_rejects, matches_any]
  simp [should_trace, defaultConfig, h1]

theorem deliver_ring_depth (cfg : Config) (r : Ring) (e : Event) :
    (deliver cfg r e).ring.depth = r.depth := by
  cases hm : cfg.mode <;> simp [deliver, hm, bufStore]

theorem deliver_ring_func_stack (cfg : Config) (r : Ring) (e : Event) :
    (deliver cfg r e).ring.func_stack = r.func_stack := by
  cases hm : cfg.mode <;> simp [deliver, hm, bufStore]

theorem deliver_ring_depth_max (cfg : Config) (r : Ring) (e : Event) :
    (deliver cfg r e).ring.depth_max = r.depth_max := by
  cases hm : cfg.mode <;> simp [deliver, hm, bufStore]

theorem deliver_stored_buffered (cfg : Config) (r : Ring) (e : Event)
    (hm : cfg.mode = TracingMode.Buffered) :
    (deliver cfg r e).stored = some e := by
  simp [deliver, hm]

/-- An accepted Enter in any mode: the assembled event carries the
pre-increment depth, the function name is pushed at that depth, and the
ring's depth is incremented. -/
theorem write_enter_accepted (cfg : Config) (r : Ring) (func file : Option (List Char))
    (l : Int) (n s : Nat)
    (hdm : r.depth < (r.depth_max : Int))
    (hpass : should_trace cfg.filter func file r.depth = true) :
    Ring.write cfg r EventType.Enter func file l n s =
      deliver cfg
        { r with
          start_stack := r.start_stack.set r.depth.toNat n
          func_stack := r.func_stack.set r.depth.toNat func
          depth := r.depth + 1 }
        { ts_ns := n
          func := func
          file := file
          line := l
          depth := r.depth
          tid := r.tid
          color_offset := r.color_offset
          type := EventType.Enter
          dur_ns := 0
          msg := []
          memory_rss := if cfg.track_memory then s else 0 } := by
  rw [Ring.write.eq_def, if_neg (by simp [hpass])]
  dsimp only
  rw [if_pos hdm]

/-- An accepted Message in Buffered mode: the stored event reads the
function name from the depth stack at `depth - 1`, carries the current
depth and the truncated text. -/
theorem write_msg_buffered_stored (cfg : Config) (r : Ring) (file2 : Option (List Char))
    (l2 : Int) (n2 s2 : Nat) (txt : Option (List Char))
    (hmode : cfg.mode = TracingMode.Buffered)
    (hdpos : 0 < r.depth) (hdm2 : r.depth - 1 < (r.depth_max : Int))
    (hpassAll : ∀ fn : Option (List Char), should_trace cfg.filter fn file2 r.depth = true) :
    (Ring.write_msg cfg r file2 l2 n2 s2 txt).stored =
      some
        { ts_ns := n2
          func := r.func_stack.getD (r.depth - 1).toNat none
          file := file2
          line := l2
          depth := r.depth
          tid := r.tid
          color_offset := r.color_offset
          type := EventType.Msg
          dur_ns := 0
          msg := msgFormat txt
          memory_rss := if cfg.track_memory then s2 else 0 } := by
  rw [Ring.write_msg.eq_def]
  dsimp only
  rw [if_pos hdpos, if_pos hdm2, hmode]
  dsimp only
  rw [Ring.write.eq_def, if_neg (by simp [hpassAll])]
  dsimp only
  rw [deliver_stored_buffered cfg _ _ hmode]
  rfl

/-- C7 counterexample.  Under the default configuration, an Enter is
assigned depth 0, and a message recorded inside that scope is stored with
depth 1 — one beyond the enclosing Enter's depth — contradicting the
claim that the Message carries the Enter's depth. -/
theorem claim_C7_counterexample :
    cexC7Enter.stored.map Event.depth = some 0 ∧
    cexC7Msg.stored.map Event.depth = some 1 ∧
    cexC7Msg.stored.map Event.func = some (some ['f']) := by
  decide

/-- C7 amended.  A Message recorded inside a scope carries depth one
greater than the depth assigned to the enclosing Enter (namely the ring's
current depth), and inherits that Enter's function name. -/
theorem claim_C7_amended (cfg : Config) (r : Ring) (func file file2 : Option (List Char))
    (l l2 : Int) (n s n2 s2 : Nat) (txt : Option (List Char))
    (hmode : cfg.mode = TracingMode.Buffered)
    (hfilter : cfg.filter = defaultConfig.filter)
    (hd : 0 ≤ r.depth) (hdm : r.depth < (r.depth_max : Int))
    (hstack : r.depth.toNat < r.func_stack.length) :
    ∃ ee me,
      (Ring.write cfg r EventType.Enter func file l n s).stored = some ee ∧
      (Ring.write_msg cfg (Ring.write cfg r EventType.Enter func file l n s).ring
        file2 l2 n2 s2 txt).stored = some me ∧
      me.depth = ee.depth + 1 ∧ me.func = ee.func := by
  have hpass : ∀ fn fl : Option (List Char), ∀ d : Int,
      should_trace cfg.filter fn fl d = true := by
    intro fn fl d
    rw [hfilter]
    exact should_trace_default fn fl d
  have hwrite := write_enter_accepted cfg r func file l n s hdm (hpass func file r.depth)
  have hR1d : (Ring.write cfg r EventType.Enter func file l n s).ring.depth = r.depth + 1 := by
    rw [hwrite, deliver_ring_depth]
  have hR1fs : (Ring.write cfg r EventType.Enter func file l n s).ring.func_stack =
      r.func_stack.set r.depth.toNat func := by
    rw [hwrite, deliver_ring_func_stack]
  have hR1dm : (Ring.write cfg r EventType.Enter func file l n s).ring.depth_max =
      r.depth_max := by
    rw [hwrite, deliver_ring_depth_max]
  have hmsg := write_msg_buffered_stored cfg
    (Ring.write cfg r EventType.Enter func file l n s).ring file2 l2 n2 s2 txt hmode
    (by rw [hR1d]; omega) (by rw [hR1d, hR1dm]; omega)
    (fun fn => hpass fn file2 _)
  have hname : (Ring.write cfg r EventType.Enter func file l n s).ring.func_stack.getD
      ((Ring.write cfg r EventType.Enter func file l n s).ring.depth - 1).toNat none = func := by
    rw [hR1fs, hR1d]
    have htn : (r.depth + 1 - 1).toNat = r.depth.toNat := by omega
    rw [htn]
    exact getD_set_self_gen r.func_stack r.depth.toNat func none hstack
  refine
    ⟨{ ts_ns := n, func := func, file := file, line := l, depth := r.depth,
       tid := r.tid, color_offset := r.color_offset, type := EventType.Enter,
       dur_ns := 0, msg := [], memory_rss := if cfg.track_memory then s else 0 },
     { ts_ns := n2,
       func := (Ring.write cfg r EventType.Enter func file l n s).ring.func_stack.getD
         ((Ring.write cfg r EventType.Enter func file l n s).ring.depth - 1).toNat none,
       file := file2, line := l2,
       depth := (Ring.write cfg r EventType.Enter func file l n s).ring.depth,
       tid := (Ring.write cfg r EventType.Enter func file l n s).ring.tid,
       color_offset := (Ring.write cfg r EventType.Enter func file l n s).ring.color_offset,
       type := EventType.Msg, dur_ns := 0, msg := msgFormat txt,
       memory_rss := if cfg.track_memory then s2 else 0 }, ?_, ?_, ?_, ?_⟩
  · rw [hwrite]
    exact deliver_stored_buffered cfg _ _ hmode
  · exact hmsg
  · dsimp only
    rw [hR1d]
  · dsimp only
    exact hname

/-- C7 witness: the amended statement at a fresh ring under the default
configuration. -/
theorem claim_C7_amended_witness :
    defaultConfig.mode = TracingMode.Buffered ∧
    (∃ ee me,
      (Ring.write defaultConfig cexRing EventType.Enter (some ['f']) (some ['c']) 1 10 0).stored =
        some ee ∧
      (Ring.write_msg defaultConfig
        (Ring.write defaultConfig cexRing EventType.Enter (some ['f']) (some ['c']) 1 10 0).ring
        (some ['c']) 2 20 0 (some ['h', 'i'])).stored = some me ∧
      me.depth = ee.depth + 1 ∧ me.func = ee.func) :=
  ⟨rfl,
   claim_C7_amended defaultConfig cexRing (some ['f']) (some ['c']) (some ['c'])
     1 2 10 0 20 0 (some ['h', 'i']) rfl rfl (by decide) (by decide) (by decide)⟩

/-! ### C10: record-message -/

theorem deliver_buffered (cfg : Config) (r : Ring) (e : Event)
    (hm : cfg.mode = TracingMode.Buffered) :
    deliver cfg r e = { ring := bufStore r e, stored := some e, enqueued := none } := by
  simp [deliver, hm]

/-- In Buffered mode, an accepted message is stored at the head slot (the
text is formatted into that same slot), the head advances, and nothing
else in the ring changes. -/
theorem write_msg_buffered_accepted (cfg : Config) (r : Ring) (file : Option (List Char))
    (l : Int) (n s : Nat) (txt : Option (List Char))
    (hm : cfg.mode = TracingMode.Buffered)
    (hcap : 0 < r.cap) (hlen : r.buf.length = r.cap) (hhead : r.head < r.cap)
    (hst : should_trace cfg.filter (msgEventOf r file l n txt 0).func file r.depth = true) :
    Ring.write_msg cfg r file l n s txt =
      { ring :=
          { r with
            buf := r.buf.set r.head
              (msgEventOf r file l n txt (if cfg.track_memory then s else 0))
            head := (r.head + 1) % r.cap
            wraps := if (r.head + 1) % r.cap = 0 then r.wraps + 1 else r.wraps }
        stored := some (msgEventOf r file l n txt (if cfg.track_memory then s else 0))
        enqueued := none } := by
  have hidx : ((r.head + 1) % r.cap + r.cap - 1) % r.cap = r.head := by
    have h1 : (r.head + 1) % r.cap + r.cap - 1 = (r.head + 1) % r.cap + (r.cap - 1) := by
      omega
    have h2 : ((r.head + 1) % r.cap + (r.cap - 1)) % r.cap =
        (r.head + 1 + (r.cap - 1)) % r.cap :=
      (Nat.mod_modEq (r.head + 1) r.cap).add_right (r.cap - 1)
    have h3 : r.head + 1 + (r.cap - 1) = r.head + r.cap := by omega
    rw [h1, h2, h3, Nat.add_mod_right]
    exact Nat.mod_eq_of_lt hhead
  rw [Ring.write_msg.eq_def, hm]
  dsimp only
  rw [Ring.write.eq_def, if_neg (by simp only [msgEventOf] at hst; simpa using hst)]
  dsimp only
  rw [deliver_buffered cfg _ _ hm]
  dsimp only
  simp only [bufStore]
  rw [hidx]
  rw [List.get?_eq_getElem?, List.getElem?_set]
  simp only [if_pos rfl, hlen, hhead, if_true, reduceIte]
  rw [List.set_set]
  simp [msgEventOf]

/-- C10 counterexample.  After a complete Enter/Exit pair the depth is
back to zero, yet a message recorded then carries the function name still
sitting in slot 0 of the depth stack — not an empty name as the claim
states for depth zero. -/
theorem claim_C10_counterexample :
    cexC10Ring.depth = 0 ∧
    cexC10Msg.stored.map Event.func = some (some ['f']) ∧
    some (some ['f']) ≠ some (none : Option (List Char)) := by
  refine ⟨by decide, by decide, by decide⟩

/-- C10 amended.  `record-message` reads the function name from the depth
stack at `depth - 1` clamped to index 0 (when the depth is zero the name
is whatever slot 0 last held, not necessarily empty), assembles a Message
event with the current depth and the truncated text, and delivers it per
mode: async immediate enqueues it leaving the ring untouched; hybrid
stores it at head and enqueues it; buffered stores it at head when the
filter accepts it (and then no other slot of the ring is modified, the
head advances by one, and the depth is unchanged). -/
theorem claim_C10_amended (cfg : Config) (r : Ring) (file : Option (List Char)) (l : Int)
    (n s : Nat) (txt : Option (List Char))
    (hcap : 0 < r.cap) (hlen : r.buf.length = r.cap) (hhead : r.head < r.cap) :
    (cfg.mode = TracingMode.Immediate →
      Ring.write_msg cfg r file l n s txt =
        { ring := r, stored := none, enqueued := some (msgEventOf r file l n txt 0) }) ∧
    (cfg.mode = TracingMode.Hybrid →
      Ring.write_msg cfg r file l n s txt =
        { ring := bufStore r (msgEventOf r file l n txt 0)
          stored := some (msgEventOf r file l n txt 0)
          enqueued := some (msgEventOf r file l n txt 0) }) ∧
    (cfg.mode = TracingMode.Buffered →
      should_trace cfg.filter (msgEventOf r file l n txt 0).func file r.depth = true →
      (Ring.write_msg cfg r file l n s txt).stored =
        some (msgEventOf r file l n txt (if cfg.track_memory then s else 0)) ∧
      (Ring.write_msg cfg r file l n s txt).enqueued = none ∧
      (Ring.write_msg cfg r file l n s txt).ring.buf =
        r.buf.set r.head (msgEventOf r file l n txt (if cfg.track_memory then s else 0)) ∧
      (Ring.write_msg cfg r file l n s txt).ring.head = (r.head + 1) % r.cap ∧
      (Ring.write_msg cfg r file l n s txt).ring.depth = r.depth) := by
  refine ⟨?_, ?_, ?_⟩
  · intro hm
    rw [Ring.write_msg.eq_def, hm]
    rfl
  · intro hm
    rw [Ring.write_msg.eq_def, hm]
    rfl
  · intro hm hst
    rw [write_msg_buffered_accepted cfg r file l n s txt hm hcap hlen hhead hst]
    exact ⟨rfl, rfl, rfl, rfl, rfl⟩

/-- C10 witness: the amended statement at a fresh ring under the default
configuration (the Buffered conjunct applies and its filter premise holds
by computation). -/
theorem claim_C10_amended_witness :
    0 < cexRing.cap ∧
    ((defaultConfig.mode = TracingMode.Immediate →
      Ring.write_msg defaultConfig cexRing (some ['c']) 9 90 0 (some ['h']) =
        { ring := cexRing
          stored := none
          enqueued := some (msgEventOf cexRing (some ['c']) 9 90 (some ['h']) 0) }) ∧
    (defaultConfig.mode = TracingMode.Hybrid →
      Ring.write_msg defaultConfig cexRing (some ['c']) 9 90 0 (some ['h']) =
        { ring := bufStore cexRing (msgEventOf cexRing (some ['c']) 9 90 (some ['h']) 0)
          stored := some (msgEventOf cexRing (some ['c']) 9 90 (some ['h']) 0)
          enqueued := some (msgEventOf cexRing (some ['c']) 9 90 (some ['h']) 0) }) ∧
    (defaultConfig.mode = TracingMode.Buffered →
      should_trace defaultConfig.filter
        (msgEventOf cexRing (some ['c']) 9 90 (some ['h']) 0).func (some ['c'])
        cexRing.depth = true →
      (Ring.write_msg defaultConfig cexRing (some ['c']) 9 90 0 (some ['h'])).stored =
        some (msgEventOf cexRing (some ['c']) 9 90 (some ['h'])
          (if defaultConfig.track_memory then 0 else 0)) ∧
      (Ring.write_msg defaultConfig cexRing (some ['c']) 9 90 0 (some ['h'])).enqueued = none ∧
      (Ring.write_msg defaultConfig cexRing (some ['c']) 9 90 0 (some ['h'])).ring.buf =
        cexRing.buf.set cexRing.head
          (msgEventOf cexRing (some ['c']) 9 90 (some ['h'])
            (if defaultConfig.track_memory then 0 else 0)) ∧
      (Ring.write_msg defaultConfig cexRing (some ['c']) 9 90 0 (some ['h'])).ring.head =
        (cexRing.head + 1) % cexRing.cap ∧
      (Ring.write_msg defaultConfig cexRing (some ['c']) 9 90 0 (some ['h'])).ring.depth =
        cexRing.depth)) :=
  ⟨by decide,
   claim_C10_amended defaultConfig cexRing (some ['c']) 9 90 0 (some ['h'])
     (by decide) (by decide) (by decide)⟩

/-! ### C5: wildcard matcher correctness

The proof goes through the structural glob semantics `GM`: first the
recursive matcher is shown equivalent to `GM` (by strong induction on the
combined length, mirroring the matcher's recursion), then `GM` is shown
equivalent to the claim's segment decomposition. -/

theorem skipStars_le (p : List Char) : (skipStars p).length ≤ p.length := by
  induction p with
  | nil => simp [skipStars]
  | cons c p ih =>
    simp only [skipStars]
    split
    · exact Nat.le_succ_of_le ih
    · exact Nat.le_refl _

theorem skipStars_cons_star (p : List Char) : skipStars ('*' :: p) = skipStars p := by
  simp [skipStars]

theorem skipStars_head_ne (p : List Char) (c : Char) (q : List Char)
    (h : skipStars p = c :: q) : c ≠ '*' := by
  induction p with
  | nil => simp [skipStars] at h
  | cons a p ih =>
    simp only [skipStars] at h
    split at h
    · exact ih h
    · next ha =>
      injection h with h1 h2
      subst h1
      exact ha

theorem gm_nil_iff (t : List Char) : GM [] t ↔ t = [] := by
  constructor
  · intro h
    cases h
    rfl
  · rintro rfl
    exact GM.nil

theorem gm_cons_iff {c : Char} (hc : c ≠ '*') (p t : List Char) :
    GM (c :: p) t ↔ ∃ u, t = c :: u ∧ GM p u := by
  constructor
  · intro h
    cases h with
    | cons h1 h2 => exact ⟨_, rfl, h2⟩
    | star_skip h1 => exact absurd rfl hc
    | star_eat h1 => exact absurd rfl hc
  · rintro ⟨u, rfl, hu⟩
    exact GM.cons hc hu

theorem gm_star_iff (p t : List Char) :
    GM ('*' :: p) t ↔ ∃ u, u <:+ t ∧ GM p u := by
  constructor
  · intro h
    induction t with
    | nil =>
      cases h with
      | star_skip h1 => exact ⟨[], List.suffix_rfl, h1⟩
    | cons c t iht =>
      cases h with
      | cons h1 h2 => exact absurd rfl h1
      | star_skip h1 => exact ⟨c :: t, List.suffix_rfl, h1⟩
      | star_eat h1 =>
        obtain ⟨u, hut, hu⟩ := iht h1
        exact ⟨u, hut.trans (List.suffix_cons c t), hu⟩
  · rintro ⟨u, ⟨w, rfl⟩, hu⟩
    induction w with
    | nil => exact GM.star_skip hu
    | cons c w ihw => exact GM.star_eat ihw

theorem gm_t_nil_iff (p : List Char) : GM p [] ↔ skipStars p = [] := by
  induction p with
  | nil => simp [skipStars, gm_nil_iff]
  | cons c p ih =>
    by_cases hc : c = '*'
    · subst hc
      rw [skipStars_cons_star]
      constructor
      · intro h
        cases h with
        | star_skip h1 => exact ih.mp h1
      · intro h
        exact GM.star_skip (ih.mpr h)
    · constructor
      · intro h
        cases h with
        | star_skip h1 => exact absurd rfl hc
      · intro h
        rw [show skipStars (c :: p) = c :: p from by simp [skipStars, hc]] at h
        exact absurd h (by simp)

theorem gm_allstars_cons (p t : List Char) (h : skipStars p = []) : GM ('*' :: p) t := by
  induction t with
  | nil => exact GM.star_skip ((gm_t_nil_iff p).mpr h)
  | cons c t ih => exact GM.star_eat ih

theorem gm_skip_iff (p t : List Char) :
    GM ('*' :: p) t ↔ ∃ u, u <:+ t ∧ GM (skipStars p) u := by
  induction p generalizing t with
  | nil => simpa [skipStars] using gm_star_iff [] t
  | cons c p ih =>
    by_cases hc : c = '*'
    · subst hc
      rw [skipStars_cons_star]
      constructor
      · intro h
        obtain ⟨u, hut, hu⟩ := (gm_star_iff ('*' :: p) t).mp h
        obtain ⟨v, hvu, hv⟩ := (ih u).mp hu
        exact ⟨v, hvu.trans hut, hv⟩
      · rintro ⟨v, hvt, hv⟩
        exact (gm_star_iff ('*' :: p) t).mpr
          ⟨v, hvt, (ih v).mpr ⟨v, List.suffix_rfl, hv⟩⟩
    · rw [show skipStars (c :: p) = c :: p from by simp [skipStars, hc]]
      exact gm_star_iff (c :: p) t

theorem tryStars_eq_any (ps t : List Char) :
    tryStars ps t = true ↔
      ∃ u, u <:+ t ∧ u ≠ [] ∧ wildcard_match ps u = true := by
  induction t with
  | nil =>
    simp only [tryStars, Bool.false_eq_true, false_iff]
    rintro ⟨u, hu, hne, _⟩
    exact hne (List.suffix_nil.mp hu)
  | cons c t ih =>
    simp only [tryStars, Bool.or_eq_true, ih]
    constructor
    · rintro (h | ⟨u, hut, hne, hwm⟩)
      · exact ⟨c :: t, List.suffix_rfl, by simp, h⟩
      · exact ⟨u, hut.trans (List.suffix_cons c t), hne, hwm⟩
    · rintro ⟨u, hut, hne, hwm⟩
      rcases List.suffix_cons_iff.mp hut with rfl | hut2
      · exact Or.inl hwm
      · exact Or.inr ⟨u, hut2, hne, hwm⟩

/-- The matcher agrees with the structural glob semantics (strong
induction on the combined length, following the matcher's recursion). -/
theorem wildcard_match_gm_bound :
    ∀ n : Nat, ∀ p t : List Char, p.length + t.length ≤ n →
      (wildcard_match p t = true ↔ GM p t) := by
  intro n
  induction n with
  | zero =>
    intro p t hle
    have hp : p = [] := List.length_eq_zero.mp (by omega)
    have ht : t = [] := List.length_eq_zero.mp (by omega)
    subst hp
    subst ht
    simp [wildcard_match, skipStars, gm_nil_iff]
  | succ n ih =>
    intro p t hle
    cases p with
    | nil =>
      cases t with
      | nil => simp [wildcard_match, skipStars, gm_nil_iff]
      | cons tc t2 => simp [wildcard_match, skipStars, gm_nil_iff]
    | cons pc p2 =>
      cases t with
      | nil =>
        have hwm : wildcard_match (pc :: p2) [] = (skipStars (pc :: p2)).isEmpty := by
          simp [wildcard_match]
        rw [hwm]
        simp [gm_t_nil_iff, List.isEmpty_iff]
      | cons tc t2 =>
        by_cases hpc : pc = '*'
        · subst hpc
          rw [wildcard_match.eq_def]
          dsimp only
          rw [if_pos rfl]
          by_cases hps : (skipStars p2).isEmpty
          · rw [if_pos hps]
            exact iff_of_true rfl
              (gm_allstars_cons p2 (tc :: t2) (List.isEmpty_iff.mp hps))
          · rw [if_neg hps]
            obtain ⟨c, q, hcq⟩ : ∃ c q, skipStars p2 = c :: q := by
              cases hsk : skipStars p2 with
              | nil => exact absurd (by simp [hsk]) hps
              | cons c q => exact ⟨c, q, rfl⟩
            have hcne := skipStars_head_ne p2 c q hcq
            rw [tryStars_eq_any]
            have hlen2 : ∀ u : List Char, u <:+ tc :: t2 →
                (skipStars p2).length + u.length ≤ n := by
              intro u hu
              have h1 := skipStars_le p2
              have h2 := hu.length_le
              simp only [List.length_cons] at h2 hle
              omega
            constructor
            · rintro ⟨u, hut, hne, hwm⟩
              exact (gm_skip_iff p2 (tc :: t2)).mpr
                ⟨u, hut, (ih _ _ (hlen2 u hut)).mp hwm⟩
            · intro h
              obtain ⟨u, hut, hu⟩ := (gm_skip_iff p2 (tc :: t2)).mp h
              have hne : u ≠ [] := by
                rw [hcq] at hu
                obtain ⟨v, rfl, _⟩ := (gm_cons_iff hcne q u).mp hu
                simp
              exact ⟨u, hut, hne, (ih _ _ (hlen2 u hut)).mpr (hcq ▸ hu)⟩
        · rw [wildcard_match.eq_def]
          dsimp only
          rw [if_neg hpc]
          by_cases heq : pc = tc
          · subst heq
            rw [if_pos rfl]
            have hlen2 : p2.length + t2.length ≤ n := by
              simp only [List.length_cons] at hle
              omega
            rw [ih p2 t2 hlen2]
            constructor
            · intro h
              exact (gm_cons_iff hpc p2 (pc :: t2)).mpr ⟨t2, rfl, h⟩
            · intro h
              obtain ⟨u, hu, hgm⟩ := (gm_cons_iff hpc p2 (pc :: t2)).mp h
              injection hu with h1 h2
              subst h2
              exact hgm
          · rw [if_neg heq]
            refine iff_of_false (by simp) ?_
            intro h
            obtain ⟨u, hu, _⟩ := (gm_cons_iff hpc p2 (tc :: t2)).mp h
            injection hu with h1 h2
            exact heq h1.symm

theorem segsOf_ne_nil (p : List Char) : segsOf p ≠ [] := by
  cases p with
  | nil => simp [segsOf]
  | cons c p =>
    simp only [segsOf]
    cases hsp : segsOf p with
    | nil => by_cases hc : c = '*' <;> simp [hc]
    | cons s ss => by_cases hc : c = '*' <;> simp [hc]

/-- The structural glob semantics agrees with the claim's segment
decomposition. -/
theorem gm_iff_segsMatch (p : List Char) : ∀ t, GM p t ↔ SegsMatch (segsOf p) t := by
  induction p with
  | nil =>
    intro t
    simp [segsOf, SegsMatch, gm_nil_iff]
  | cons c p ih =>
    intro t
    rcases hsp : segsOf p with _ | ⟨s, ss⟩
    · exact absurd hsp (segsOf_ne_nil p)
    by_cases hc : c = '*'
    · subst hc
      rw [gm_star_iff]
      rw [show segsOf ('*' :: p) = [] :: s :: ss from by simp [segsOf, hsp]]
      show _ ↔ ∃ w u, t = [] ++ w ++ u ∧ SegsMatch (s :: ss) u
      constructor
      · rintro ⟨u, ⟨w, rfl⟩, hu⟩
        exact ⟨w, u, by simp, hsp ▸ (ih u).mp hu⟩
      · rintro ⟨w, u, rfl, hu⟩
        exact ⟨u, ⟨w, by simp⟩, (ih u).mpr (hsp ▸ hu)⟩
    · rw [show segsOf (c :: p) = (c :: s) :: ss from by simp [segsOf, hsp, hc]]
      rw [gm_cons_iff hc]
      cases ss with
      | nil =>
        show (∃ u, t = c :: u ∧ GM p u) ↔ t = c :: s
        constructor
        · rintro ⟨u, rfl, hu⟩
          have : SegsMatch [s] u := hsp ▸ (ih u).mp hu
          rw [show SegsMatch [s] u = (u = s) from rfl] at this
          rw [this]
        · rintro rfl
          refine ⟨s, rfl, (ih s).mpr (hsp ▸ ?_)⟩
          rw [show SegsMatch [s] s = (s = s) from rfl]
      | cons s2 ss2 =>
        show (∃ u, t = c :: u ∧ GM p u) ↔
          ∃ w u, t = (c :: s) ++ w ++ u ∧ SegsMatch (s2 :: ss2) u
        constructor
        · rintro ⟨u, rfl, hu⟩
          have : SegsMatch (s :: s2 :: ss2) u := hsp ▸ (ih u).mp hu
          obtain ⟨w, v, rfl, hv⟩ := this
          exact ⟨w, v, by simp, hv⟩
        · rintro ⟨w, v, rfl, hv⟩
          refine ⟨s ++ w ++ v, by simp, (ih _).mpr (hsp ▸ ?_)⟩
          exact ⟨w, v, rfl, hv⟩

/-- C5.  `match("*", s)` is true for every `s`, and `match(p, s)` is true
iff `s` equals the concatenation of the literal segments of `p` separated
by arbitrary substrings, one for each `*` — whole-string matching,
anchored at both ends and case-sensitive (character equality is exact). -/
theorem claim_C5_wildcard_match (p s : List Char) :
    wildcard_match ['*'] s = true ∧
    (wildcard_match p s = true ↔ GlobSpec p s) := by
  constructor
  · cases s with
    | nil => simp [wildcard_match, skipStars]
    | cons c t => simp [wildcard_match, skipStars]
  · rw [wildcard_match_gm_bound (p.length + s.length) p s (Nat.le_refl _)]
    exact gm_iff_segsMatch p s

end Trace
